import Mathlib

/-!
Verification development for the AskCarBuddy analysis pipeline (src/app.py).

Shallow embedding conventions:
* Python values flowing through the loosely-typed payloads are modelled by `Val`
  (`None`, `int`, `float`, `str`).  Python `float`s are idealized as exact
  rationals (`ℚ`); Python `int`s are unbounded (`ℤ`), as in CPython.
* Functions that can raise in Python return `Option`; every exception path that
  the source catches (bare `except`, `try/except`) is collapsed to `none`.
* External collaborators (HTTP services, the generation service, the SQLite
  store) are passed in as explicit data / oracles; the state of a table is a
  Lean list and an endpoint is a function from request and table to response
  and new table.
-/

/-- A loosely-typed Python value: `None`, `int`, `float` (idealized as an exact
rational) or `str` (a list of characters). -/
inductive Val where
  | vnone : Val
  | vint (n : ℤ) : Val
  | vfloat (q : ℚ) : Val
  | vstr (s : List Char) : Val
deriving DecidableEq

/-- Python truthiness of a `Val`: `None`, `0`, `0.0` and `""` are falsy. -/
def truthy : Val → Bool
  | .vnone => false
  | .vint n => decide (n ≠ 0)
  | .vfloat q => decide (q ≠ 0)
  | .vstr s => decide (s ≠ [])

/-- Python `int(x)` truncation toward zero of a rational (what `int` does to a
`float`). -/
def pyTrunc (q : ℚ) : ℤ := if 0 ≤ q then ⌊q⌋ else -⌊-q⌋

/-- Numeric value of a string of decimal digits (most significant first). -/
def digitsVal (s : List Char) : ℕ :=
  s.foldl (fun a c => 10 * a + (c.toNat - 48)) 0

/-- Python `int(float(s))` for a string `s` made only of digits and dots
(the shape produced by `re.sub(r'[^\d.]', '', ...)`): `float` accepts the
string iff it has at most one dot and at least one digit, and `int` then
truncates to the integer part.  Floats are idealized as exact rationals. -/
def parseFloatIntPart (s : List Char) : Option ℤ :=
  match s.splitOn '.' with
  | [ip] => if ip = [] then none else some (digitsVal ip : ℤ)
  | [ip, fp] => if ip = [] ∧ fp = [] then none else some (digitsVal ip : ℤ)
  | _ => none

/-- `parse_price` (src/app.py, lines 321-328): `None` maps to absent; an
`int`/`float` is truncated, guarded by truthiness of the *original* value
(`int(val) if val > 0 else None`); a string is stripped to digits and at most
one decimal point, parsed as a float, truncated, and kept only if positive.
All exception paths (`except: return None`) are `none`. -/
def parse_price (val : Val) : Option ℤ :=
  match val with
  | .vnone => none
  | .vint n => if 0 < n then some n else none
  | .vfloat q => if 0 < q then some (pyTrunc q) else none
  | .vstr s =>
    let t := s.filter (fun c => c.isDigit || c == '.')
    match parseFloatIntPart t with
    | some p => if 0 < p then some p else none
    | none => none

/-- `parse_mileage` (src/app.py, lines 330-337): like `parse_price` but the
string is stripped to digits only (`re.sub(r'[^\d]', ...)`) and parsed with
`int`, which fails exactly on the empty string. -/
def parse_mileage (val : Val) : Option ℤ :=
  match val with
  | .vnone => none
  | .vint n => if 0 < n then some n else none
  | .vfloat q => if 0 < q then some (pyTrunc q) else none
  | .vstr s =>
    let t := s.filter (fun c => c.isDigit)
    if t = [] then none
    else if 0 < (digitsVal t : ℤ) then some (digitsVal t : ℤ) else none

/-- Python `int(x)` applied to a `Val` (used by the year normalization
`int(vehicle["year"])`): truncates numbers; parses a string as an optionally
signed run of digits; raises (`none`) on `None` and unparsable strings. -/
def pyInt (val : Val) : Option ℤ :=
  match val with
  | .vnone => none
  | .vint n => some n
  | .vfloat q => some (pyTrunc q)
  | .vstr s =>
    match s with
    | '-' :: t => if t ≠ [] ∧ t.all Char.isDigit then some (-(digitsVal t : ℤ)) else none
    | '+' :: t => if t ≠ [] ∧ t.all Char.isDigit then some (digitsVal t : ℤ) else none
    | t => if t ≠ [] ∧ t.all Char.isDigit then some (digitsVal t : ℤ) else none

/-- Round-half-to-even of the exact rational `num / den` (for `0 < den`),
matching Python's `round` on the idealized (exact) value. -/
def roundHalfEven (num den : ℤ) : ℤ :=
  let q := num / den
  let r := num % den
  if 2 * r < den then q
  else if den < 2 * r then q + 1
  else if q % 2 = 0 then q else q + 1

/-- `int(statistics.median(prices))` on an already sorted list: the middle
element for odd length, the truncated mean of the two middle elements for even
length (exact for the nonnegative integer prices that reach it). -/
def medianInt (sorted : List ℤ) : ℤ :=
  let n := sorted.length
  if n % 2 = 1 then sorted.getD (n / 2) 0
  else (sorted.getD (n / 2 - 1) 0 + sorted.getD (n / 2) 0) / 2

/-- One histogram bucket `{"min": ..., "max": ..., "count": ...}`. -/
structure Bucket where
  bmin : ℤ
  bmax : ℤ
  count : ℕ
deriving DecidableEq

/-- The histogram loop of `get_market_comps` (src/app.py, lines 597-603):
starting at `current = min_price`, append a bucket counting prices in
`[current, current + bucket_size)` while `current < max_price + bucket_size`,
breaking once more than 15 buckets have been appended.  The loop is embedded
with a structural fuel parameter; the source's own break bounds the appends by
16, and the real bucket width bound keeps them at most 12 (proved below), so
the fuel of 17 used at the call site is never exhausted. -/
def bucketLoop (prices : List ℤ) (bs maxP : ℤ) : ℕ → ℤ → List Bucket → List Bucket
  | 0, _, acc => acc
  | fuel + 1, current, acc =>
    if current < maxP + bs then
      let acc2 := acc ++
        [⟨current, current + bs,
          prices.countP (fun p => decide (current ≤ p) && decide (p < current + bs))⟩]
      if 15 < acc2.length then acc2
      else bucketLoop prices bs maxP fuel (current + bs) acc2
    else acc

/-- The market snapshot dictionary returned by `get_market_comps`
(src/app.py, lines 604-611). -/
structure MarketSnapshot where
  avgPrice : ℤ
  medianPrice : ℤ
  minPrice : ℤ
  maxPrice : ℤ
  percentile : Option ℤ
  dealScore : Option ℤ
  savings : Option ℤ
  compCount : ℕ
  totalMarket : ℕ
  priceBuckets : List Bucket
  pricesSample : List ℤ
  mileagePrices : List (ℤ × ℤ)
deriving DecidableEq

/-- The truthiness filter applied to each parsed comp price and mileage
(`if p:` / `if m:` in the collection loop, src/app.py, lines 576-581): a
parse result of `0` is discarded along with parse failures. -/
def truthyParse (o : Option ℤ) : Option ℤ :=
  match o with
  | some p => if p = 0 then none else some p
  | none => none

/-- `bucket_size` (src/app.py, lines 594-596) as a function of the sorted
price list: `num_buckets = min(10, max(4, len(prices) // 2))` and
`bucket_size = max(500, (max_price - min_price) // num_buckets)`, with the
source's dead `bucket_size == 0` fallback kept. -/
def bucketWidth (prices : List ℤ) : ℤ :=
  let numBuckets : ℤ := min 10 (max 4 ((prices.length : ℤ) / 2))
  let bs0 := max 500 ((prices.getLastD 0 - prices.headD 0) / numBuckets)
  if bs0 = 0 then 1000 else bs0

/-- The histogram of `get_market_comps` (src/app.py, lines 594-603) over the
sorted price list. -/
def priceBucketsOf (prices : List ℤ) : List Bucket :=
  bucketLoop prices (bucketWidth prices) (prices.getLastD 0) 17 (prices.headD 0) []

/-- `get_market_comps` (src/app.py, lines 557-614), modelled from the point
the provider response is in hand: `records` is the list of raw
(price, mileage) record values and `total` the provider's `totalCount`.
Prices are parsed and filtered to the truthy ones; if none remain the result
is absent.  Statistics are computed on the sorted price list.  The percentile
`round(below / len * 100)` and the deal score
`round(10 - percentile / 10) = round((100 - percentile) / 10)` use exact
rational rounding in place of Python float rounding, and are computed only
when `listing_price` is truthy. -/
def getMarketComps (records : List (Val × Val)) (total : ℕ)
    (listingPrice : Option ℤ) : Option MarketSnapshot :=
  let prices0 := records.filterMap (fun r => truthyParse (parse_price r.1))
  let mileagePrices := records.filterMap (fun r =>
    match truthyParse (parse_price r.1), truthyParse (parse_mileage r.2) with
    | some p, some m => some (p, m)
    | _, _ => none)
  if prices0 = [] then none
  else
    let prices := List.insertionSort (fun a b => a ≤ b) prices0
    let avgPrice := prices.sum / (prices.length : ℤ)
    let medianPrice := medianInt prices
    let minPrice := prices.headD 0
    let maxPrice := prices.getLastD 0
    let pds : Option ℤ × Option ℤ × Option ℤ :=
      match listingPrice with
      | some lp =>
        if lp ≠ 0 then
          let below : ℤ := prices.countP (fun p => decide (p ≤ lp))
          let pct := roundHalfEven (below * 100) (prices.length : ℤ)
          (some pct, some (max 1 (min 10 (roundHalfEven (100 - pct) 10))),
            some (medianPrice - lp))
        else (none, none, none)
      | none => (none, none, none)
    some { avgPrice := avgPrice, medianPrice := medianPrice,
           minPrice := minPrice, maxPrice := maxPrice,
           percentile := pds.1, dealScore := pds.2.1, savings := pds.2.2,
           compCount := prices.length, totalMarket := total,
           priceBuckets := priceBucketsOf prices,
           pricesSample := prices.take 30,
           mileagePrices := mileagePrices.take 30 }

/-- Buckets form a consecutive chain of half-open width-`bs` intervals
starting at `c`: bucket `i` is `[c + i * bs, c + (i + 1) * bs)`. -/
def ChainedFrom (bs : ℤ) : ℤ → List Bucket → Prop
  | _, [] => True
  | c, b :: rest => b.bmin = c ∧ b.bmax = c + bs ∧ ChainedFrom bs (c + bs) rest

/-- The complaint-count term of the risk score (src/app.py, lines 657-663):
flat zero up to 20 complaints, then coarse non-linear steps. -/
def complaintPts (cc : ℕ) : ℚ :=
  if cc ≤ 20 then 0
  else if cc ≤ 50 then 0.5
  else if cc ≤ 100 then 1
  else if cc ≤ 200 then 1.5
  else if cc ≤ 500 then 2.5
  else 3.5

/-- The recall-count term of the risk score (src/app.py, lines 664-668). -/
def recallPts (rc : ℕ) : ℚ :=
  if rc ≤ 2 then 0
  else if rc ≤ 4 then 0.5
  else if rc ≤ 6 then 1.5
  else 2.5

/-- The severity term `min(2, severe_count * 0.5)` (src/app.py, line 674). -/
def severityPts (severe : ℕ) : ℚ := min 2 ((severe : ℚ) * 0.5)

/-- Python `round(q)` (round half to even) of an exact rational. -/
def pyRound (q : ℚ) : ℤ := roundHalfEven q.num (q.den : ℤ)

/-- Python `round(q, 1)` of an exact rational. -/
def roundTo1 (q : ℚ) : ℚ := (pyRound (q * 10) : ℚ) / 10

/-- The risk score kernel (src/app.py, lines 675-676):
`round(min(10, max(0, complaint_pts + recall_pts + severity_pts)), 1)`,
as a function of the complaint count, the recall count and the number of
severe-keyword complaint matches. -/
def riskScore (cc rc severe : ℕ) : ℚ :=
  roundTo1 (min 10 (max 0 (complaintPts cc + recallPts rc + severityPts severe)))

/-- The fixed high-severity keywords (src/app.py, line 669). -/
def severeKeywords : List (List Char) :=
  ["death".toList, "fatality".toList, "unintended acceleration".toList,
   "loss of steering".toList]

/-- Python `needle in hay` contiguous-substring test on character lists. -/
def hasSub (needle : List Char) : List Char → Bool
  | [] => needle.isEmpty
  | c :: cs => needle.isPrefixOf (c :: cs) || hasSub needle cs

/-- `severe_count` (src/app.py, lines 670-673): the number of scanned
complaint summaries whose lowercase text contains a severe keyword. -/
def severeCount (texts : List (List Char)) : ℕ :=
  texts.countP (fun t => severeKeywords.any (fun kw => hasSub kw (t.map Char.toLower)))

/-- The risk score as computed by `get_nhtsa_data` from the complaint summary
texts (only the first 20 are scanned for severity, mirroring
`complaints_raw = complaints[:20]`) and the recall count. -/
def getNhtsaRiskScore (complaints : List (List Char)) (recallCount : ℕ) : ℚ :=
  riskScore complaints.length recallCount (severeCount (complaints.take 20))

/-- The vehicle-dictionary keys touched by the merge steps of
`analyze_listing` (src/app.py, lines 1567-1608). -/
inductive VField where
  | year | make | model | trim | price | mileage | vin | zip | color
  | dealerName | dealerPhone | engine | transmission | drivetrain
  | fuelType | mpgCity | mpgHighway | bodyType | photos
deriving DecidableEq

/-- The `vehicle` dictionary: a partial map from keys to Python values
(`none` is an absent key). -/
def Vehicle : Type := VField → Option Val

/-- Truthiness of a dictionary lookup: an absent key is falsy. -/
def truthyO : Option Val → Bool
  | none => false
  | some v => truthy v

/-- `vehicle[f] = x`, leaving every other key unchanged. -/
def setF (v : Vehicle) (f : VField) (x : Option Val) : Vehicle :=
  fun g => if g = f then x else v g

/-- The caller-supplied fields (src/app.py, line 1567). -/
def callerFields : List VField :=
  [.year, .make, .model, .trim, .price, .mileage, .vin, .zip, .color, .dealerName]

/-- One step of the caller-override loop (src/app.py, lines 1567-1568):
`if input_data.get(field): vehicle[field] = input_data[field]`. -/
def callerStep (input : Vehicle) (w : Vehicle) (f : VField) : Vehicle :=
  if truthyO (input f) then setF w f (input f) else w

/-- The caller-override loop over `callerFields`. -/
def applyCaller (input : Vehicle) (veh : Vehicle) : Vehicle :=
  callerFields.foldl (callerStep input) veh

/-- The keys filled from the Auto.dev VIN-lookup record by the generic
fill-if-missing loop (src/app.py, lines 1577-1579). -/
def autodevFields : List VField :=
  [.year, .make, .model, .trim, .price, .mileage, .engine, .transmission,
   .drivetrain, .fuelType, .mpgCity, .mpgHighway, .bodyType]

/-- The Auto.dev VIN-lookup record (`lookup_vin_autodev`), as consumed by
`analyze_listing`: the loop keys plus the specially-handled dealer name,
dealer phone, display color and photo list (the photo list is abstracted to
one opaque value whose truthiness stands for non-emptiness; its `[:8]` slice
is not modelled). -/
structure AutodevData where
  fields : VField → Option Val
  dealerName : Option Val
  dealerPhone : Option Val
  displayColor : Option Val
  photoUrls : Option Val

/-- One fill-if-missing step:
`if vin_data.get(k) and not vehicle.get(k): vehicle[k] = vin_data[k]`. -/
def fillStep (d : VField → Option Val) (w : Vehicle) (f : VField) : Vehicle :=
  if truthyO (d f) && !(truthyO (w f)) then setF w f (d f) else w

/-- The fill-if-missing loop over the Auto.dev record keys (src/app.py,
lines 1577-1579); in `applyAutodev` below, `none` covers a missing API key, a
missing VIN-lookup record, or a skipped lookup. -/
def adFill (d : AutodevData) (v : Vehicle) : Vehicle :=
  autodevFields.foldl (fillStep d.fields) v

/-- `if vin_data.get("dealerName") and not vehicle.get("dealer_name")`
(src/app.py, lines 1580-1581). -/
def adDealerName (d : AutodevData) (v : Vehicle) : Vehicle :=
  if truthyO d.dealerName && !(truthyO (v VField.dealerName)) then
    setF v .dealerName d.dealerName else v

/-- `if vin_data.get("dealerPhone"): vehicle["dealer_phone"] = ...`
(src/app.py, line 1582) — note: unconditional overwrite. -/
def adDealerPhone (d : AutodevData) (v : Vehicle) : Vehicle :=
  if truthyO d.dealerPhone then setF v .dealerPhone d.dealerPhone else v

/-- `if vin_data.get("photoUrls") and not vehicle.get("photos")`
(src/app.py, lines 1583-1584). -/
def adPhotos (d : AutodevData) (v : Vehicle) : Vehicle :=
  if truthyO d.photoUrls && !(truthyO (v VField.photos)) then
    setF v .photos d.photoUrls else v

/-- `if vin_data.get("displayColor") and not vehicle.get("color")`
(src/app.py, lines 1585-1586). -/
def adColor (d : AutodevData) (v : Vehicle) : Vehicle :=
  if truthyO d.displayColor && !(truthyO (v VField.color)) then
    setF v .color d.displayColor else v

/-- The Auto.dev enrichment block (src/app.py, lines 1574-1586), the five
steps in source order. -/
def applyAutodev (vd : Option AutodevData) (v : Vehicle) : Vehicle :=
  match vd with
  | none => v
  | some d => adColor d (adPhotos d (adDealerPhone d (adDealerName d (adFill d v))))

/-- Price normalization (src/app.py, line 1589):
`vehicle["price"] = parse_price(vehicle["price"]) or vehicle["price"]`,
executed only when the current value is truthy. -/
def normPrice (v : Vehicle) : Vehicle :=
  if truthyO (v .price) then
    match v .price with
    | some pv =>
      match parse_price pv with
      | some p => setF v .price (some (Val.vint p))
      | none => v
    | none => v
  else v

/-- Mileage normalization (src/app.py, line 1590). -/
def normMileage (v : Vehicle) : Vehicle :=
  if truthyO (v .mileage) then
    match v .mileage with
    | some mv =>
      match parse_mileage mv with
      | some m => setF v .mileage (some (Val.vint m))
      | none => v
    | none => v
  else v

/-- Year normalization (src/app.py, lines 1591-1593):
`try: vehicle["year"] = int(vehicle["year"]) except: pass`. -/
def normYear (v : Vehicle) : Vehicle :=
  if truthyO (v .year) then
    match v .year with
    | some yv =>
      match pyInt yv with
      | some n => setF v .year (some (Val.vint n))
      | none => v
    | none => v
  else v

/-- The NHTSA VIN-decode fields that `analyze_listing` merges back into the
vehicle (src/app.py, lines 1603-1608); the decode's other keys only feed the
identity card. -/
structure VinDecodeData where
  trim : Option Val
  driveType : Option Val
  transmission : Option Val

/-- `if vin_decode.get("trim") and not vehicle.get("trim")` (src/app.py,
lines 1603-1604). -/
def vdTrim (d : VinDecodeData) (v : Vehicle) : Vehicle :=
  if truthyO d.trim && !(truthyO (v VField.trim)) then setF v .trim d.trim else v

/-- `if vin_decode.get("drive_type") and not vehicle.get("drivetrain")`
(src/app.py, lines 1605-1606). -/
def vdDrivetrain (d : VinDecodeData) (v : Vehicle) : Vehicle :=
  if truthyO d.driveType && !(truthyO (v VField.drivetrain)) then
    setF v .drivetrain d.driveType else v

/-- `if vin_decode.get("transmission") and not vehicle.get("transmission")`
(src/app.py, lines 1607-1608). -/
def vdTransmission (d : VinDecodeData) (v : Vehicle) : Vehicle :=
  if truthyO d.transmission && !(truthyO (v VField.transmission)) then
    setF v .transmission d.transmission else v

/-- The VIN-decode enrichment block (src/app.py, lines 1598-1608); `none`
covers a failed decode. -/
def applyVinDecode (vd : Option VinDecodeData) (v : Vehicle) : Vehicle :=
  match vd with
  | none => v
  | some d => vdTransmission d (vdDrivetrain d (vdTrim d v))

/-- Canonical normalization of a caller-supplied value, as applied by
`analyze_listing`: price and mileage are re-parsed when parseable, the year is
converted with `int` when convertible, and every other field is untouched. -/
def normFieldVal (f : VField) (x : Option Val) : Option Val :=
  match x with
  | none => none
  | some v =>
    if f = .price then some (match parse_price v with | some p => Val.vint p | none => v)
    else if f = .mileage then some (match parse_mileage v with | some m => Val.vint m | none => v)
    else if f = .year then some (match pyInt v with | some n => Val.vint n | none => v)
    else some v

/-- The merge chain of `analyze_listing` from the caller-override step onward
(src/app.py, lines 1567-1608).  `veh0` is the vehicle dictionary accumulated
from the URL stages (abstracted, since those stages run before the caller
override), `input` the caller-supplied fields, `autodev` the optional Auto.dev
VIN-lookup record and `vdec` the optional NHTSA VIN decode.  The function
fails (`none`) exactly on the identity-resolution failure
`"Couldn't identify the car"` (src/app.py, lines 1570-1571). -/
def analyzeMerge (veh0 : Vehicle) (input : Vehicle) (autodev : Option AutodevData)
    (vdec : Option VinDecodeData) : Option Vehicle :=
  let v1 := applyCaller input veh0
  if !(truthyO (v1 .make)) || !(truthyO (v1 .model)) then none
  else
    let v2 := if truthyO (v1 .vin) then applyAutodev autodev v1 else v1
    let v3 := normYear (normMileage (normPrice v2))
    let v4 := if truthyO (v3 .vin) then applyVinDecode vdec v3 else v3
    some v4

/-- The empty pre-merge vehicle (a run whose URL stages found nothing). -/
def emptyVehicle : Vehicle := fun _ => none

/-- A caller input whose price is the non-canonical string `"$13,435"`. -/
def cexCallerInput : Vehicle := fun f =>
  match f with
  | .make => some (Val.vstr "Toyota".toList)
  | .model => some (Val.vstr "Prius".toList)
  | .price => some (Val.vstr "$13,435".toList)
  | _ => none

/-- A caller input with canonical values (used as a concrete witness). -/
def witCallerInput : Vehicle := fun f =>
  match f with
  | .make => some (Val.vstr "Toyota".toList)
  | .model => some (Val.vstr "Prius".toList)
  | .price => some (Val.vstr "12000".toList)
  | .year => some (Val.vstr "2017".toList)
  | _ => none

/-- The merged vehicle of the concrete witness run. -/
def witMerged : Vehicle :=
  (analyzeMerge emptyVehicle witCallerInput none none).getD emptyVehicle

/-- The five report sections (keys of `SECTION_PROMPTS`, src/app.py). -/
def sectionNames : List String :=
  ["model_year_summary", "vehicle_history", "price_analysis",
   "owner_feedback", "dealer_questions"]

/-- The output-size budget of every section call (src/app.py, line 1295:
`"max_tokens": 3000`). -/
def sectionMaxTokens : ℕ := 3000

/-- `generate_section` (src/app.py, lines 1266-1309), with the generation
service as an oracle mapping (attempt index, max_tokens budget) to the parsed
structured payload of a successful call, or `none` for any failure
(non-200 status, request exception, or malformed/truncated JSON — all of
which the source collapses to `return None`).  The result is paired with the
log of budgets used, one entry per call issued.  An unknown section name
returns without calling the service. -/
def generate_section (name : String) (o : ℕ → ℕ → Option String) :
    Option String × List ℕ :=
  if name ∈ sectionNames then (o 0 sectionMaxTokens, [sectionMaxTokens])
  else (none, [])

/-- A section slot of the assembled report: either a populated payload or the
per-section failure marker written by the pipeline collector. -/
inductive SectionOutcome where
  | ok (payload : String) : SectionOutcome
  | failed (msg : String) : SectionOutcome
deriving DecidableEq

/-- The section-collection step of `generate_analysis_pipeline`
(src/app.py, lines 1479-1496): each section's outcome is computed from its own
generation call only; a `None` result becomes the error marker
`{"error": "Section generation failed"}`. -/
def pipelineSection (oracles : String → ℕ → ℕ → Option String) (name : String) :
    SectionOutcome :=
  match (generate_section name (oracles name)).1 with
  | some p => .ok p
  | none => .failed "Section generation failed"

/-- A row of the `traces` table, restricted to the fields the claims speak
about (the input reference and the error column). -/
structure TraceRec where
  url : String
  error : Option String
deriving DecidableEq

/-- The three ways `analyze_listing` can come back to the `/api/analyze`
handler: a report, a report-shaped error dictionary, or a raised exception. -/
inductive AnalyzeOutcome where
  | report (rep : String) : AnalyzeOutcome
  | errReport (msg : String) : AnalyzeOutcome
  | exn (msg : String) : AnalyzeOutcome
deriving DecidableEq

/-- `api_analyze` (src/app.py, lines 1683-1731) as a transformer of the trace
store: `data` is the parsed request body (`none` for a missing or falsy body,
which returns 400 before any trace is written), `outcome` the behavior of
`analyze_listing` on this request, and the result is the HTTP status paired
with the new trace table.  On an error report the trace's error column holds
the report's error message; on an exception it holds `str(e)`; on success it
is NULL. -/
def api_analyze (data : Option String) (outcome : AnalyzeOutcome)
    (traces : List TraceRec) : ℕ × List TraceRec :=
  match data with
  | none => (400, traces)
  | some url =>
    match outcome with
    | .errReport m => (400, traces ++ [⟨url, some m⟩])
    | .report _ => (200, traces ++ [⟨url, none⟩])
    | .exn m => (500, traces ++ [⟨url, some m⟩])

/-- The allowed reward signal types (src/app.py, line 1760). -/
def allowedSignals : List String :=
  ["thumbs", "useful", "paid", "shared", "copy_question", "section_expand"]

/-- The parsed body of a `/api/reward` request: each field is `none` when the
key is absent.  A missing or falsy body is the `none` of the endpoint's
argument. -/
structure RewardReq where
  traceId : Option String
  signalType : Option String
  signalValue : Option ℚ
  metadata : Option String

/-- A row of the `rewards` table (`save_reward`, src/app.py, lines 183-192). -/
structure RewardRow where
  traceId : String
  signalType : String
  signalValue : ℚ
  metadata : Option String

/-- `api_reward` (src/app.py, lines 1754-1770) as a transformer of the rewards
table: 400 and no insert when the body is falsy, a key is missing, or the
signal type is not allowed; otherwise one row is inserted with
`signal_value` defaulting to 1. -/
def api_reward (data : Option RewardReq) (rewards : List RewardRow) :
    ℕ × List RewardRow :=
  match data with
  | none => (400, rewards)
  | some d =>
    match d.traceId, d.signalType with
    | some t, some s =>
      if s ∈ allowedSignals then
        (200, rewards ++ [⟨t, s, d.signalValue.getD 1, d.metadata⟩])
      else (400, rewards)
    | _, _ => (400, rewards)

/-- Spec-side restatement of the reward-intake acceptance condition: the body
is present and contains a `trace_id` key and a `signal_type` belonging to the
fixed allowed set. -/
def rewardValid (data : Option RewardReq) : Bool :=
  match data with
  | none => false
  | some d =>
    match d.traceId, d.signalType with
    | some _, some s => decide (s ∈ allowedSignals)
    | _, _ => false

/-- Spec-side restatement of the row inserted by an accepted reward request
(empty for a rejected one). -/
def insertedRewardRows : Option RewardReq → List RewardRow
  | none => []
  | some d =>
    match d.traceId, d.signalType with
    | some t, some s =>
      if s ∈ allowedSignals then [⟨t, s, d.signalValue.getD 1, d.metadata⟩] else []
    | _, _ => []

/-- The comp price records of the spec's worked example. -/
def recsC2 : List (Val × Val) :=
  [(Val.vint 9295, Val.vnone), (Val.vint 10500, Val.vnone), (Val.vint 11200, Val.vnone),
   (Val.vint 12100, Val.vnone), (Val.vint 12400, Val.vnone), (Val.vint 13000, Val.vnone),
   (Val.vint 14995, Val.vnone)]

/-- A one-comp record list (used as a concrete witness input). -/
def recsOne : List (Val × Val) := [(Val.vint 1000, Val.vnone)]

/-- The snapshot computed for the one-comp witness input. -/
def snapOne : MarketSnapshot :=
  (getMarketComps recsOne 1 none).getD
    ⟨0, 0, 0, 0, none, none, none, 0, 0, [], [], []⟩

/-- A two-comp record list (used as a concrete witness input). -/
def recsTwo : List (Val × Val) :=
  [(Val.vint 9295, Val.vint 100000), (Val.vint 10500, Val.vnone)]

/-- The snapshot computed for the two-comp witness input. -/
def snapTwo : MarketSnapshot :=
  (getMarketComps recsTwo 2 none).getD
    ⟨0, 0, 0, 0, none, none, none, 0, 0, [], [], []⟩

theorem parse_price_nonneg (v : Val) (p : ℤ) (h : parse_price v = some p) : 0 ≤ p := by
  cases v with
  | vnone => simp [parse_price] at h
  | vint n =>
    simp only [parse_price] at h
    split_ifs at h with h1
    obtain rfl : n = p := by injection h
    omega
  | vfloat q =>
    simp only [parse_price] at h
    split_ifs at h with h1
    obtain rfl : pyTrunc q = p := by injection h
    simp only [pyTrunc, if_pos (le_of_lt h1)]
    exact Int.floor_nonneg.mpr (le_of_lt h1)
  | vstr s =>
    simp only [parse_price] at h
    rcases hfp : parseFloatIntPart (s.filter (fun c => c.isDigit || c == '.')) with _ | m
    · rw [hfp] at h; simp at h
    · rw [hfp] at h
      have h2 : (if 0 < m then some m else none) = some p := h
      split_ifs at h2 with h1
      obtain rfl : m = p := by injection h2
      omega

theorem parse_mileage_nonneg (v : Val) (p : ℤ) (h : parse_mileage v = some p) : 0 ≤ p := by
  cases v with
  | vnone => simp [parse_mileage] at h
  | vint n =>
    simp only [parse_mileage] at h
    split_ifs at h with h1
    obtain rfl : n = p := by injection h
    omega
  | vfloat q =>
    simp only [parse_mileage] at h
    split_ifs at h with h1
    obtain rfl : pyTrunc q = p := by injection h
    simp only [pyTrunc, if_pos (le_of_lt h1)]
    exact Int.floor_nonneg.mpr (le_of_lt h1)
  | vstr s =>
    simp only [parse_mileage] at h
    split_ifs at h with h1 h2
    obtain rfl : (digitsVal (s.filter Char.isDigit) : ℤ) = p := by injection h
    omega

/-- C5 (counterexample): the claimed idempotence fails as stated.  On the
numeric input `0.5` the source's guard `int(val) if val > 0 else None` tests
the value before truncation, so `parse_price(0.5)` returns the non-absent
value `0`, while re-parsing that output (`parse_price(0)`) is absent. -/
theorem parse_price_idempotence_refuted :
    parse_price (Val.vfloat (1 / 2)) = some 0 ∧ parse_price (Val.vint 0) = none := by
  constructor
  · simp only [parse_price]
    rw [if_pos (by norm_num)]
    have h : pyTrunc ((1 : ℚ) / 2) = 0 := by
      simp only [pyTrunc, if_pos (by norm_num : (0 : ℚ) ≤ 1 / 2)]
      rw [Int.floor_eq_zero_iff]
      constructor <;> norm_num
    rw [h]
  · simp [parse_price]

/-- C5 (amended): `parse_price` and `parse_mileage` are total (every exception
path of the source is the absent value), return absent on `None`, empty
strings, and non-positive numeric input, return only nonnegative values, and
are idempotent on every non-absent output that is positive — the only
non-idempotent case being a numeric input strictly between 0 and 1, where the
parser returns `0` (see the counterexample), which re-parses to absent. -/
theorem parsers_total_absent_idempotent_on_positive (v : Val) (p n : ℤ) (q : ℚ) :
    (parse_price v = some p → 0 < p → parse_price (Val.vint p) = some p) ∧
    (parse_mileage v = some p → 0 < p → parse_mileage (Val.vint p) = some p) ∧
    (parse_price v = some p → 0 ≤ p) ∧
    (parse_mileage v = some p → 0 ≤ p) ∧
    (q ≤ 0 → parse_price (Val.vfloat q) = none ∧ parse_mileage (Val.vfloat q) = none) ∧
    (n ≤ 0 → parse_price (Val.vint n) = none ∧ parse_mileage (Val.vint n) = none) ∧
    parse_price (Val.vstr []) = none ∧ parse_mileage (Val.vstr []) = none ∧
    parse_price Val.vnone = none ∧ parse_mileage Val.vnone = none := by
  refine ⟨?_, ?_, parse_price_nonneg v p, parse_mileage_nonneg v p, ?_, ?_, ?_, ?_, rfl, rfl⟩
  · intro _ hp; simp [parse_price, hp]
  · intro _ hp; simp [parse_mileage, hp]
  · intro hq
    constructor <;> simp [parse_price, parse_mileage, not_lt.mpr hq]
  · intro hn
    constructor <;> simp [parse_price, parse_mileage, not_lt.mpr hn]
  · rfl
  · rfl

theorem parsers_total_absent_idempotent_on_positive_witness :
    parse_price (Val.vint 4500) = some 4500 ∧ parse_mileage (Val.vint 77000) = some 77000 :=
  ⟨(parsers_total_absent_idempotent_on_positive
      (Val.vstr "$4,500".toList) 4500 0 0).1 (by rfl) (by decide),
   (parsers_total_absent_idempotent_on_positive
      (Val.vstr "77,000 miles".toList) 77000 0 0).2.1 (by rfl) (by decide)⟩

/-- C2: on the spec's worked example — comp prices
[9295, 10500, 11200, 12100, 12400, 13000, 14995] and listing price 13435 —
`get_market_comps` computes median 12100, percentile 86, deal score 1 and
savings −1335. -/
theorem marketComps_reference_example :
    (getMarketComps recsC2 7 (some 13435)).map
      (fun s => (s.medianPrice, s.percentile, s.dealScore, s.savings)) =
      some (12100, some 86, some 1, some (-1335)) := by rfl

/-- C6 (counterexample): the claim fails as stated — an invocation of the
analyze endpoint whose request body is missing or falsy returns 400 before
any trace is written (src/app.py, lines 1685-1687), so zero (not exactly one)
Trace records are written for it. -/
theorem trace_every_invocation_refuted :
    ((api_analyze none (AnalyzeOutcome.report "never produced") []).2).length = 0 ∧
    (api_analyze none (AnalyzeOutcome.report "never produced") []).1 = 400 :=
  ⟨rfl, rfl⟩

/-- C6 (amended): every invocation of the analyze endpoint that carries a
request body writes exactly one Trace record — including invocations that
terminate in the identity-resolution failure and invocations that raise — and
on those failing invocations the trace's error field is populated; an
invocation with a missing or falsy body writes none and returns 400. -/
theorem trace_written_once_per_bodied_invocation (url m rep : String)
    (traces : List TraceRec) :
    api_analyze (some url) (.errReport m) traces = (400, traces ++ [⟨url, some m⟩]) ∧
    api_analyze (some url) (.exn m) traces = (500, traces ++ [⟨url, some m⟩]) ∧
    api_analyze (some url) (.report rep) traces = (200, traces ++ [⟨url, none⟩]) ∧
    api_analyze none (.errReport m) traces = (400, traces) :=
  ⟨rfl, rfl, rfl, rfl⟩

/-- C10: the reward-intake endpoint inserts a reward row if and only if the
request contains both a `trace_id` and a `signal_type` belonging to the fixed
allowed set; any other request gets a 400 and leaves the rewards table
unchanged. -/
theorem reward_insert_iff_valid (data : Option RewardReq) (rewards : List RewardRow) :
    api_reward data rewards =
      ((if rewardValid data then 200 else 400), rewards ++ insertedRewardRows data) ∧
    (insertedRewardRows data).length = (if rewardValid data then 1 else 0) := by
  rcases data with _ | d
  · simp [api_reward, rewardValid, insertedRewardRows]
  · rcases ht : d.traceId with _ | t <;> rcases hs : d.signalType with _ | s
    · simp [api_reward, rewardValid, insertedRewardRows, ht, hs]
    · simp [api_reward, rewardValid, insertedRewardRows, ht, hs]
    · simp [api_reward, rewardValid, insertedRewardRows, ht, hs]
    · by_cases hmem : s ∈ allowedSignals <;>
        simp [api_reward, rewardValid, insertedRewardRows, ht, hs, hmem]

/-- C1 (counterexample): the retry claim fails as stated — on a call whose
structured result is malformed (the oracle answers `none`), `generate_section`
issues exactly one generation call with the fixed 3000-token budget and
returns the failure immediately; no second call with an enlarged budget is
made. -/
theorem generateSection_retry_refuted :
    (generate_section "price_analysis" (fun _ _ => none)).1 = none ∧
    (generate_section "price_analysis" (fun _ _ => none)).2 = [3000] ∧
    ((generate_section "price_analysis" (fun _ _ => none)).2).length = 1 :=
  ⟨by rfl, by rfl, by rfl⟩

/-- C1 (amended): for every report section, the generator makes exactly one
structured-generation call, with the fixed 3000-token output budget and no
retry; a malformed/failed result immediately becomes that section's
per-section failure marker, and a section's outcome depends only on its own
call, so a failure does not abort sibling sections. -/
theorem generateSection_single_fixed_budget_attempt
    (o1 o2 : String → ℕ → ℕ → Option String) (name : String)
    (h : name ∈ sectionNames) (hagree : o2 name = o1 name) :
    (generate_section name (o1 name)).2 = [sectionMaxTokens] ∧
    (pipelineSection o1 name = .failed "Section generation failed" ↔
      o1 name 0 sectionMaxTokens = none) ∧
    pipelineSection o2 name = pipelineSection o1 name := by
  refine ⟨?_, ?_, ?_⟩
  · simp [generate_section, h]
  · simp only [pipelineSection, generate_section, if_pos h]
    rcases ho : o1 name 0 sectionMaxTokens with _ | p <;> simp [ho]
  · simp [pipelineSection, hagree]

theorem generateSection_single_fixed_budget_attempt_witness :
    (generate_section "owner_feedback"
      ((fun _ => fun _ _ => (none : Option String)) "owner_feedback")).2 = [sectionMaxTokens] ∧
    (pipelineSection (fun _ => fun _ _ => none) "owner_feedback" =
        .failed "Section generation failed" ↔
      (fun _ => fun _ _ => (none : Option String)) "owner_feedback" 0 sectionMaxTokens = none) ∧
    pipelineSection
        (fun n => if n = "owner_feedback" then fun _ _ => none else fun _ _ => some "payload")
        "owner_feedback" =
      pipelineSection (fun _ => fun _ _ => none) "owner_feedback" :=
  generateSection_single_fixed_budget_attempt
    (fun _ => fun _ _ => none)
    (fun n => if n = "owner_feedback" then fun _ _ => none else fun _ _ => some "payload")
    "owner_feedback" (by decide) rfl

theorem roundHalfEven_int_den_one (n : ℤ) : roundHalfEven n 1 = n := by
  simp only [roundHalfEven]
  split_ifs <;> omega

theorem pyRound_intCast (n : ℤ) : pyRound ((n : ℚ)) = n := by
  simp [pyRound, Rat.num_intCast, Rat.den_intCast, roundHalfEven_int_den_one]

theorem roundTo1_natHalf (k : ℕ) : roundTo1 ((k : ℚ) / 2) = (k : ℚ) / 2 := by
  have h10 : ((k : ℚ) / 2) * 10 = ((5 * k : ℤ) : ℚ) := by push_cast; ring
  rw [roundTo1, h10, pyRound_intCast]
  push_cast; ring

theorem complaintPts_halves (cc : ℕ) : ∃ k : ℕ, k ≤ 7 ∧ complaintPts cc = (k : ℚ) / 2 := by
  unfold complaintPts
  split_ifs
  · exact ⟨0, by norm_num⟩
  · exact ⟨1, by norm_num⟩
  · exact ⟨2, by norm_num⟩
  · exact ⟨3, by norm_num⟩
  · exact ⟨5, by norm_num⟩
  · exact ⟨7, by norm_num⟩

theorem recallPts_halves (rc : ℕ) : ∃ k : ℕ, k ≤ 5 ∧ recallPts rc = (k : ℚ) / 2 := by
  unfold recallPts
  split_ifs
  · exact ⟨0, by norm_num⟩
  · exact ⟨1, by norm_num⟩
  · exact ⟨3, by norm_num⟩
  · exact ⟨5, by norm_num⟩

theorem severityPts_halves (s : ℕ) : ∃ k : ℕ, k ≤ 4 ∧ severityPts s = (k : ℚ) / 2 := by
  rcases le_total 4 s with h | h
  · refine ⟨4, le_refl _, ?_⟩
    unfold severityPts
    rw [min_eq_left] <;> [norm_num; skip]
    have h4 : (4 : ℚ) ≤ (s : ℚ) := by exact_mod_cast h
    norm_num
    linarith
  · refine ⟨s, h, ?_⟩
    unfold severityPts
    rw [min_eq_right]
    · ring
    · have h4 : (s : ℚ) ≤ 4 := by exact_mod_cast h
      norm_num
      linarith

theorem riskScore_eq (cc rc s : ℕ) :
    riskScore cc rc s = complaintPts cc + recallPts rc + severityPts s := by
  obtain ⟨a, ha, hA⟩ := complaintPts_halves cc
  obtain ⟨b, hb, hB⟩ := recallPts_halves rc
  obtain ⟨c, hc, hC⟩ := severityPts_halves s
  rw [riskScore, hA, hB, hC]
  have hsum : (a : ℚ) / 2 + (b : ℚ) / 2 + (c : ℚ) / 2 = ((a + b + c : ℕ) : ℚ) / 2 := by
    push_cast; ring
  rw [hsum]
  have h0 : (0 : ℚ) ≤ ((a + b + c : ℕ) : ℚ) / 2 := by positivity
  have h10 : ((a + b + c : ℕ) : ℚ) / 2 ≤ 10 := by
    have hle : ((a + b + c : ℕ) : ℚ) ≤ 16 := by exact_mod_cast (by omega : a + b + c ≤ 16)
    linarith
  rw [max_eq_right h0, min_eq_right h10, roundTo1_natHalf]

theorem complaintPts_mono {cc₁ cc₂ : ℕ} (h : cc₁ ≤ cc₂) :
    complaintPts cc₁ ≤ complaintPts cc₂ := by
  unfold complaintPts
  split_ifs <;> first | (exfalso; omega) | norm_num

theorem recallPts_mono {rc₁ rc₂ : ℕ} (h : rc₁ ≤ rc₂) : recallPts rc₁ ≤ recallPts rc₂ := by
  unfold recallPts
  split_ifs <;> first | (exfalso; omega) | norm_num

theorem complaintPts_bounds (cc : ℕ) : 0 ≤ complaintPts cc ∧ complaintPts cc ≤ 3.5 := by
  unfold complaintPts
  split_ifs <;> norm_num

theorem recallPts_bounds (rc : ℕ) : 0 ≤ recallPts rc ∧ recallPts rc ≤ 2.5 := by
  unfold recallPts
  split_ifs <;> norm_num

theorem severityPts_bounds (s : ℕ) : 0 ≤ severityPts s ∧ severityPts s ≤ 2 := by
  constructor
  · unfold severityPts
    have : (0 : ℚ) ≤ (s : ℚ) * 0.5 := by positivity
    exact le_min (by norm_num) this
  · exact min_le_left _ _

/-- C3: the risk score computed from recall and complaint data is a pure
function of its inputs (it is a Lean function of the complaint count, the
recall count and the scanned complaint texts), and holding the other inputs
(including the complaint texts feeding `severeCount`) fixed it is monotone
non-decreasing in the complaint count and in the recall count; the result
always lies within [0, 10]. -/
theorem riskScore_monotone_bounded (texts : List (List Char))
    (rc cc cc₁ cc₂ rc₁ rc₂ : ℕ) (h1 : cc₁ ≤ cc₂) (h2 : rc₁ ≤ rc₂) :
    riskScore cc₁ rc (severeCount texts) ≤ riskScore cc₂ rc (severeCount texts) ∧
    riskScore cc rc₁ (severeCount texts) ≤ riskScore cc rc₂ (severeCount texts) ∧
    0 ≤ riskScore cc rc (severeCount texts) ∧
    riskScore cc rc (severeCount texts) ≤ 10 := by
  refine ⟨?_, ?_, ?_, ?_⟩
  · rw [riskScore_eq, riskScore_eq]
    have := complaintPts_mono h1
    linarith
  · rw [riskScore_eq, riskScore_eq]
    have := recallPts_mono h2
    linarith
  · rw [riskScore_eq]
    have hc := (complaintPts_bounds cc).1
    have hr := (recallPts_bounds rc).1
    have hs := (severityPts_bounds (severeCount texts)).1
    linarith
  · rw [riskScore_eq]
    have hc := (complaintPts_bounds cc).2
    have hr := (recallPts_bounds rc).2
    have hs := (severityPts_bounds (severeCount texts)).2
    linarith

theorem riskScore_monotone_bounded_witness :
    riskScore 10 3 (severeCount []) ≤ riskScore 600 3 (severeCount []) ∧
    riskScore 55 0 (severeCount []) ≤ riskScore 55 9 (severeCount []) ∧
    0 ≤ riskScore 55 3 (severeCount []) ∧
    riskScore 55 3 (severeCount []) ≤ 10 :=
  riskScore_monotone_bounded [] 3 55 10 600 0 9 (by decide) (by decide)

/-- C8: the risk score never exceeds 8.0 for any input: the complaint term is
bounded by 3.5, the recall term by 2.5 and the severity term by 2.0, so the
documented upper end of the [0, 10] range is never attained. -/
theorem riskScore_upper_bound_eight (complaints : List (List Char)) (rc cc severe : ℕ) :
    getNhtsaRiskScore complaints rc ≤ 8 ∧
    getNhtsaRiskScore complaints rc < 10 ∧
    complaintPts cc ≤ 3.5 ∧ recallPts rc ≤ 2.5 ∧ severityPts severe ≤ 2 := by
  have h8 : ∀ a b c : ℕ, riskScore a b c ≤ 8 := by
    intro a b c
    rw [riskScore_eq]
    have hc := (complaintPts_bounds a).2
    have hr := (recallPts_bounds b).2
    have hs := (severityPts_bounds c).2
    linarith
  refine ⟨h8 _ _ _, lt_of_le_of_lt (h8 _ _ _) (by norm_num),
    (complaintPts_bounds cc).2, (recallPts_bounds rc).2, (severityPts_bounds severe).2⟩

theorem getLastD_mem_of_ne_nil {α : Type} : ∀ (l : List α) (d : α), l ≠ [] → l.getLastD d ∈ l := by
  intro l
  induction l with
  | nil => intro d h; exact absurd rfl h
  | cons a t ih =>
    intro d _
    rw [List.getLastD_cons]
    rcases eq_or_ne t [] with rfl | hne
    · simp [List.getLastD]
    · exact List.mem_cons_of_mem a (ih a hne)

theorem sorted_headD_le (l : List ℤ) (hs : List.Sorted (fun a b => a ≤ b) l) :
    ∀ p ∈ l, l.headD 0 ≤ p := by
  cases l with
  | nil => simp
  | cons a t =>
    intro p hp
    rcases List.mem_cons.mp hp with rfl | hp
    · simp
    · simpa using (List.sorted_cons.mp hs).1 p hp

theorem sorted_le_getLastD : ∀ (l : List ℤ), List.Sorted (fun a b => a ≤ b) l →
    ∀ (d : ℤ), ∀ p ∈ l, p ≤ l.getLastD d := by
  intro l
  induction l with
  | nil => intro _ d p hp; simp at hp
  | cons a t ih =>
    intro hs d p hp
    rw [List.getLastD_cons]
    rcases List.mem_cons.mp hp with rfl | hp
    · rcases eq_or_ne t [] with rfl | hne
      · simp [List.getLastD]
      · exact (List.sorted_cons.mp hs).1 _ (getLastD_mem_of_ne_nil t p hne)
    · exact ih (List.sorted_cons.mp hs).2 a p hp

theorem countP_interval_split (l : List ℤ) (c bs : ℤ) (hbs : 0 < bs) :
    l.countP (fun p => decide (c ≤ p) && decide (p < c + bs)) +
      l.countP (fun p => decide (c + bs ≤ p)) =
    l.countP (fun p => decide (c ≤ p)) := by
  induction l with
  | nil => simp
  | cons a t ih =>
    simp only [List.countP_cons, Bool.and_eq_true, decide_eq_true_eq]
    split_ifs <;> omega

theorem bucketLoop_length (prices : List ℤ) (bs maxP : ℤ) :
    ∀ (fuel n : ℕ) (current : ℤ) (acc : List Bucket),
      maxP + bs - current ≤ (n : ℤ) * bs →
      (bucketLoop prices bs maxP fuel current acc).length ≤ acc.length + n := by
  intro fuel
  induction fuel with
  | zero => intro n current acc _; simp [bucketLoop]
  | succ fuel ih =>
    intro n current acc hmeas
    simp only [bucketLoop]
    split_ifs with hcur hbreak
    · rcases n with _ | m
      · exfalso
        simp only [Nat.cast_zero, zero_mul] at hmeas
        omega
      · simp only [List.length_append, List.length_cons, List.length_nil]
        omega
    · rcases n with _ | m
      · exfalso
        simp only [Nat.cast_zero, zero_mul] at hmeas
        omega
      · have hmeas2 : maxP + bs - (current + bs) ≤ (m : ℤ) * bs := by
          have hc : ((m + 1 : ℕ) : ℤ) * bs = (m : ℤ) * bs + bs := by push_cast; ring
          rw [hc] at hmeas
          omega
        have := ih m (current + bs)
          (acc ++ [⟨current, current + bs,
            prices.countP (fun p => decide (current ≤ p) && decide (p < current + bs))⟩])
          hmeas2
        simp only [List.length_append, List.length_cons, List.length_nil] at this
        omega
    · omega

theorem bucketLoop_width (prices : List ℤ) (bs maxP : ℤ) :
    ∀ (fuel : ℕ) (current : ℤ) (acc : List Bucket),
      (∀ b ∈ acc, b.bmax - b.bmin = bs) →
      ∀ b ∈ bucketLoop prices bs maxP fuel current acc, b.bmax - b.bmin = bs := by
  intro fuel
  induction fuel with
  | zero => intro current acc hacc; simpa [bucketLoop] using hacc
  | succ fuel ih =>
    intro current acc hacc
    simp only [bucketLoop]
    split_ifs with hcur hbreak
    · intro b hb
      rcases List.mem_append.mp hb with hb | hb
      · exact hacc b hb
      · simp only [List.mem_singleton] at hb
        subst hb
        ring
    · apply ih
      intro b hb
      rcases List.mem_append.mp hb with hb | hb
      · exact hacc b hb
      · simp only [List.mem_singleton] at hb
        subst hb
        ring
    · intro b hb
      exact hacc b hb

theorem bucketLoop_chain (prices : List ℤ) (bs maxP : ℤ) :
    ∀ (fuel : ℕ) (current : ℤ) (acc : List Bucket),
      ∃ l, bucketLoop prices bs maxP fuel current acc = acc ++ l ∧
        ChainedFrom bs current l := by
  intro fuel
  induction fuel with
  | zero => intro current acc; exact ⟨[], by simp [bucketLoop], trivial⟩
  | succ fuel ih =>
    intro current acc
    simp only [bucketLoop]
    split_ifs with hcur hbreak
    · refine ⟨[Bucket.mk current (current + bs)
        (prices.countP (fun p => decide (current ≤ p) && decide (p < current + bs)))],
        rfl, ?_⟩
      exact ⟨rfl, rfl, trivial⟩
    · obtain ⟨l, heq, hch⟩ := ih (current + bs)
        (acc ++ [Bucket.mk current (current + bs)
          (prices.countP (fun p => decide (current ≤ p) && decide (p < current + bs)))])
      refine ⟨Bucket.mk current (current + bs)
        (prices.countP (fun p => decide (current ≤ p) && decide (p < current + bs))) :: l,
        ?_, ?_⟩
      · rw [heq]
        simp
      · exact ⟨rfl, rfl, hch⟩
    · exact ⟨[], by simp, trivial⟩

theorem bucketLoop_sum (prices : List ℤ) (bs maxP : ℤ) (hbs : 0 < bs)
    (hmax : ∀ p ∈ prices, p ≤ maxP) :
    ∀ (fuel n : ℕ) (current : ℤ) (acc : List Bucket),
      n ≤ fuel → maxP + bs - current ≤ (n : ℤ) * bs → acc.length + n ≤ 15 →
      ((bucketLoop prices bs maxP fuel current acc).map Bucket.count).sum =
        ((acc.map Bucket.count).sum) + prices.countP (fun p => decide (current ≤ p)) := by
  intro fuel
  induction fuel with
  | zero =>
    intro n current acc hnf hmeas _
    have hn : n = 0 := by omega
    subst hn
    simp only [Nat.cast_zero, zero_mul] at hmeas
    have hcnt : prices.countP (fun p => decide (current ≤ p)) = 0 := by
      rw [List.countP_eq_zero]
      intro p hp
      have := hmax p hp
      simp only [decide_eq_true_eq]
      omega
    simp [bucketLoop, hcnt]
  | succ fuel ih =>
    intro n current acc hnf hmeas hlen
    simp only [bucketLoop]
    split_ifs with hcur hbreak
    · exfalso
      rcases n with _ | m
      · simp only [Nat.cast_zero, zero_mul] at hmeas
        omega
      · simp only [List.length_append, List.length_cons, List.length_nil] at hbreak
        omega
    · rcases n with _ | m
      · exfalso
        simp only [Nat.cast_zero, zero_mul] at hmeas
        omega
      · have hmeas2 : maxP + bs - (current + bs) ≤ (m : ℤ) * bs := by
          have hc : ((m + 1 : ℕ) : ℤ) * bs = (m : ℤ) * bs + bs := by push_cast; ring
          rw [hc] at hmeas
          omega
        have hlen2 : (acc ++ [Bucket.mk current (current + bs)
            (prices.countP (fun p => decide (current ≤ p) && decide (p < current + bs)))]).length
            + m ≤ 15 := by
          simp only [List.length_append, List.length_cons, List.length_nil]
          omega
        rw [ih m (current + bs) _ (by omega) hmeas2 hlen2]
        simp only [List.map_append, List.map_cons, List.map_nil, List.sum_append,
          List.sum_cons, List.sum_nil]
        have := countP_interval_split prices current bs hbs
        omega
    · have hcnt : prices.countP (fun p => decide (current ≤ p)) = 0 := by
        rw [List.countP_eq_zero]
        intro p hp
        have := hmax p hp
        simp only [decide_eq_true_eq]
        omega
      simp [hcnt]

theorem bucketLoop_covers (prices : List ℤ) (bs maxP : ℤ) (hbs : 0 < bs)
    (hmax : ∀ p ∈ prices, p ≤ maxP) :
    ∀ (fuel n : ℕ) (current : ℤ) (acc : List Bucket),
      n ≤ fuel → maxP + bs - current ≤ (n : ℤ) * bs → acc.length + n ≤ 15 →
      ∀ p ∈ prices, current ≤ p →
        ∃ b ∈ bucketLoop prices bs maxP fuel current acc, b.bmin ≤ p ∧ p < b.bmax := by
  intro fuel
  induction fuel with
  | zero =>
    intro n current acc hnf hmeas _ p hp hcp
    exfalso
    have hn : n = 0 := by omega
    subst hn
    simp only [Nat.cast_zero, zero_mul] at hmeas
    have := hmax p hp
    omega
  | succ fuel ih =>
    intro n current acc hnf hmeas hlen p hp hcp
    simp only [bucketLoop]
    split_ifs with hcur hbreak
    · exfalso
      rcases n with _ | m
      · simp only [Nat.cast_zero, zero_mul] at hmeas
        omega
      · simp only [List.length_append, List.length_cons, List.length_nil] at hbreak
        omega
    · rcases n with _ | m
      · exfalso
        simp only [Nat.cast_zero, zero_mul] at hmeas
        omega
      · by_cases hlt : p < current + bs
        · obtain ⟨l, heq, _⟩ := bucketLoop_chain prices bs maxP fuel (current + bs)
            (acc ++ [Bucket.mk current (current + bs)
              (prices.countP (fun p => decide (current ≤ p) && decide (p < current + bs)))])
          rw [heq]
          refine ⟨Bucket.mk current (current + bs)
            (prices.countP (fun p => decide (current ≤ p) && decide (p < current + bs))),
            ?_, hcp, hlt⟩
          simp
        · have hmeas2 : maxP + bs - (current + bs) ≤ (m : ℤ) * bs := by
            have hc : ((m + 1 : ℕ) : ℤ) * bs = (m : ℤ) * bs + bs := by push_cast; ring
            rw [hc] at hmeas
            omega
          have hlen2 : (acc ++ [Bucket.mk current (current + bs)
              (prices.countP (fun p => decide (current ≤ p) && decide (p < current + bs)))]).length
              + m ≤ 15 := by
            simp only [List.length_append, List.length_cons, List.length_nil]
            omega
          exact ih m (current + bs) _ (by omega) hmeas2 hlen2 p hp (by omega)
    · exfalso
      have := hmax p hp
      omega

theorem chainedFrom_ge (bs : ℤ) (hbs : 0 < bs) :
    ∀ (l : List Bucket) (c : ℤ), ChainedFrom bs c l → ∀ b ∈ l, c ≤ b.bmin := by
  intro l
  induction l with
  | nil => intro c _ b hb; simp at hb
  | cons b0 t ih =>
    intro c hch b hb
    obtain ⟨h1, _, h3⟩ := hch
    rcases List.mem_cons.mp hb with rfl | hb
    · omega
    · have := ih (c + bs) h3 b hb
      omega

theorem chainedFrom_unique (bs : ℤ) (hbs : 0 < bs) :
    ∀ (l : List Bucket) (c : ℤ), ChainedFrom bs c l →
      ∀ (p : ℤ) (b₁ b₂ : Bucket), b₁ ∈ l → b₂ ∈ l →
        b₁.bmin ≤ p → p < b₁.bmax → b₂.bmin ≤ p → p < b₂.bmax → b₁ = b₂ := by
  intro l
  induction l with
  | nil => intro c _ p b₁ b₂ hb₁; simp at hb₁
  | cons b0 t ih =>
    intro c hch p b₁ b₂ hb₁ hb₂ h1 h2 h3 h4
    obtain ⟨hmin, hmax2, hch2⟩ := hch
    rcases List.mem_cons.mp hb₁ with he₁ | he₁
    · rcases List.mem_cons.mp hb₂ with he₂ | he₂
      · rw [he₁, he₂]
      · exfalso
        have hge := chainedFrom_ge bs hbs t (c + bs) hch2 b₂ he₂
        rw [he₁] at h2
        omega
    · rcases List.mem_cons.mp hb₂ with he₂ | he₂
      · exfalso
        have hge := chainedFrom_ge bs hbs t (c + bs) hch2 b₁ he₁
        rw [he₂] at h4
        omega
      · exact ih (c + bs) hch2 p b₁ b₂ he₁ he₂ h1 h2 h3 h4

theorem sub_div_bound (D nb : ℤ) (_hD : 0 ≤ D) (hnb1 : 1 ≤ nb) (hnb10 : nb ≤ 10) :
    D < (nb + 1) * max 500 (D / nb) := by
  have h1 : D / nb ≤ max 500 (D / nb) := le_max_right _ _
  have h2 : (500 : ℤ) ≤ max 500 (D / nb) := le_max_left _ _
  have h3 : nb * (D / nb) + D % nb = D := Int.ediv_add_emod D nb
  have h4 : D % nb < nb := Int.emod_lt_of_pos D (by omega)
  have h6 : nb * (D / nb) ≤ nb * max 500 (D / nb) :=
    mul_le_mul_of_nonneg_left h1 (by omega)
  have h7 : (nb + 1) * max 500 (D / nb) = nb * max 500 (D / nb) + max 500 (D / nb) := by
    ring
  linarith

theorem bucketWidth_ge (prices : List ℤ) : 500 ≤ bucketWidth prices := by
  simp only [bucketWidth]
  split_ifs with h0
  · norm_num
  · exact le_max_left _ _

theorem bucketWidth_measure (prices : List ℤ) (hne : prices ≠ [])
    (hsort : List.Sorted (fun a b => a ≤ b) prices) :
    prices.getLastD 0 + bucketWidth prices - prices.headD 0 ≤ 12 * bucketWidth prices := by
  have hD0 : 0 ≤ prices.getLastD 0 - prices.headD 0 := by
    have h1 := sorted_headD_le prices hsort _ (getLastD_mem_of_ne_nil prices 0 hne)
    omega
  have hnb1 : (1 : ℤ) ≤ min 10 (max 4 ((prices.length : ℤ) / 2)) :=
    le_min (by norm_num) (le_trans (by norm_num) (le_max_left _ _))
  have hnb10 : min 10 (max 4 ((prices.length : ℤ) / 2)) ≤ 10 := min_le_left _ _
  have hb := sub_div_bound (prices.getLastD 0 - prices.headD 0)
    (min 10 (max 4 ((prices.length : ℤ) / 2))) hD0 hnb1 hnb10
  have hmax0 : (0 : ℤ) ≤ max 500 ((prices.getLastD 0 - prices.headD 0) /
      min 10 (max 4 ((prices.length : ℤ) / 2))) :=
    le_trans (by norm_num) (le_max_left _ _)
  have hwidth_eq : bucketWidth prices = max 500 ((prices.getLastD 0 - prices.headD 0) /
      min 10 (max 4 ((prices.length : ℤ) / 2))) := by
    simp only [bucketWidth]
    split_ifs with h0
    · exfalso
      have h5 : (500 : ℤ) ≤ max 500 ((prices.getLastD 0 - prices.headD 0) /
          min 10 (max 4 ((prices.length : ℤ) / 2))) := le_max_left _ _
      omega
    · rfl
  rw [hwidth_eq]
  have h11 : (min 10 (max 4 ((prices.length : ℤ) / 2)) + 1) *
      max 500 ((prices.getLastD 0 - prices.headD 0) /
        min 10 (max 4 ((prices.length : ℤ) / 2))) ≤
      11 * max 500 ((prices.getLastD 0 - prices.headD 0) /
        min 10 (max 4 ((prices.length : ℤ) / 2))) :=
    mul_le_mul_of_nonneg_right (by omega) hmax0
  linarith

theorem getMarketComps_priceBuckets (records : List (Val × Val)) (total : ℕ)
    (lp : Option ℤ) (s : MarketSnapshot) (h : getMarketComps records total lp = some s) :
    ∃ prices : List ℤ,
      prices = List.insertionSort (fun a b => a ≤ b)
        (records.filterMap (fun r => truthyParse (parse_price r.1))) ∧
      prices ≠ [] ∧ List.Sorted (fun a b => a ≤ b) prices ∧
      s.priceBuckets = priceBucketsOf prices ∧ s.compCount = prices.length ∧
      s.minPrice = prices.headD 0 ∧ s.maxPrice = prices.getLastD 0 := by
  simp only [getMarketComps] at h
  by_cases he : List.filterMap (fun r => truthyParse (parse_price r.1)) records = []
  · rw [if_pos he] at h
    exact absurd h (by simp)
  · rw [if_neg he] at h
    obtain rfl := Option.some.inj h
    refine ⟨_, rfl, ?_, List.sorted_insertionSort _ _, rfl, rfl, rfl, rfl⟩
    intro h0
    apply he
    have hlen := List.length_insertionSort (fun a b => a ≤ b)
      (records.filterMap (fun r => truthyParse (parse_price r.1)))
    rw [h0] at hlen
    exact List.length_eq_zero.mp hlen.symm

/-- C7: for every market snapshot actually returned (at least one valid comp
price), the price histogram has at most 15 buckets, all of equal width, and
that width is at least the 500-unit floor, so no bucket is zero-width. -/
theorem histogram_bounded_equal_width (records : List (Val × Val)) (total : ℕ)
    (lp : Option ℤ) (s : MarketSnapshot)
    (h : getMarketComps records total lp = some s) :
    s.priceBuckets.length ≤ 15 ∧
    ∃ w : ℤ, 500 ≤ w ∧ ∀ b ∈ s.priceBuckets, b.bmax - b.bmin = w := by
  obtain ⟨prices, hpr, hne, hsort, hbk, hcc, hmin, hmax2⟩ :=
    getMarketComps_priceBuckets records total lp s h
  have hw := bucketWidth_ge prices
  have hmeasure := bucketWidth_measure prices hne hsort
  have hme : prices.getLastD 0 + bucketWidth prices - prices.headD 0 ≤
      ((12 : ℕ) : ℤ) * bucketWidth prices := by
    push_cast
    linarith
  constructor
  · rw [hbk]
    unfold priceBucketsOf
    have hlen := bucketLoop_length prices (bucketWidth prices) (prices.getLastD 0)
      17 12 (prices.headD 0) [] hme
    simp only [List.length_nil, Nat.zero_add] at hlen
    omega
  · refine ⟨bucketWidth prices, hw, ?_⟩
    rw [hbk]
    unfold priceBucketsOf
    exact bucketLoop_width prices _ _ 17 _ [] (by simp)

theorem histogram_bounded_equal_width_witness :
    snapOne.priceBuckets.length ≤ 15 ∧
    ∃ w : ℤ, 500 ≤ w ∧ ∀ b ∈ snapOne.priceBuckets, b.bmax - b.bmin = w :=
  histogram_bounded_equal_width recsOne 1 none snapOne (by rfl)

/-- C9: for every market snapshot actually returned, the histogram's bucket
counts sum to `comp_count`; the buckets are a non-empty chain of consecutive,
disjoint, half-open equal-width intervals starting at the minimum price, every
valid comp price falls in at least one bucket, and in at most one. -/
theorem histogram_counts_partition (records : List (Val × Val)) (total : ℕ)
    (lp : Option ℤ) (s : MarketSnapshot)
    (h : getMarketComps records total lp = some s) :
    ((s.priceBuckets.map Bucket.count).sum = s.compCount) ∧
    s.priceBuckets ≠ [] ∧
    (∃ w : ℤ, 0 < w ∧ ChainedFrom w s.minPrice s.priceBuckets) ∧
    (∀ (p : ℤ) (b₁ b₂ : Bucket), b₁ ∈ s.priceBuckets → b₂ ∈ s.priceBuckets →
      b₁.bmin ≤ p → p < b₁.bmax → b₂.bmin ≤ p → p < b₂.bmax → b₁ = b₂) ∧
    (∀ r ∈ records, ∀ p : ℤ, truthyParse (parse_price r.1) = some p →
      ∃ b ∈ s.priceBuckets, b.bmin ≤ p ∧ p < b.bmax) := by
  obtain ⟨prices, hpr, hne, hsort, hbk, hcc, hmin, hmax2⟩ :=
    getMarketComps_priceBuckets records total lp s h
  have hw := bucketWidth_ge prices
  have hbs : 0 < bucketWidth prices := by omega
  have hmaxall : ∀ p ∈ prices, p ≤ prices.getLastD 0 := fun p hp =>
    sorted_le_getLastD prices hsort 0 p hp
  have hme : prices.getLastD 0 + bucketWidth prices - prices.headD 0 ≤
      ((12 : ℕ) : ℤ) * bucketWidth prices := by
    push_cast
    linarith [bucketWidth_measure prices hne hsort]
  have hsum := bucketLoop_sum prices (bucketWidth prices) (prices.getLastD 0) hbs hmaxall
    17 12 (prices.headD 0) [] (by norm_num) hme (by simp)
  simp only [List.map_nil, List.sum_nil, Nat.zero_add] at hsum
  have hcount : prices.countP (fun p => decide (prices.headD 0 ≤ p)) = prices.length := by
    rw [List.countP_eq_length]
    intro p hp
    simpa using sorted_headD_le prices hsort p hp
  obtain ⟨l, heq, hch⟩ := bucketLoop_chain prices (bucketWidth prices) (prices.getLastD 0)
    17 (prices.headD 0) []
  simp only [List.nil_append] at heq
  refine ⟨?_, ?_, ⟨bucketWidth prices, hbs, ?_⟩, ?_, ?_⟩
  · rw [hbk, hcc]
    unfold priceBucketsOf
    rw [hsum, hcount]
  · intro h0
    rw [hbk] at h0
    unfold priceBucketsOf at h0
    rw [h0] at hsum
    simp only [List.map_nil, List.sum_nil] at hsum
    rw [hcount] at hsum
    exact hne (List.length_eq_zero.mp hsum.symm)
  · rw [hbk, hmin]
    unfold priceBucketsOf
    rw [heq]
    exact hch
  · intro p b₁ b₂ hb₁ hb₂ h1 h2 h3 h4
    rw [hbk] at hb₁ hb₂
    unfold priceBucketsOf at hb₁ hb₂
    rw [heq] at hb₁ hb₂
    exact chainedFrom_unique (bucketWidth prices) hbs l (prices.headD 0) hch p b₁ b₂
      hb₁ hb₂ h1 h2 h3 h4
  · intro r hr p hpr2
    have hp0 : p ∈ records.filterMap (fun r => truthyParse (parse_price r.1)) :=
      List.mem_filterMap.mpr ⟨r, hr, hpr2⟩
    have hpp : p ∈ prices := by
      rw [hpr]
      exact ((List.perm_insertionSort _ _).mem_iff).mpr hp0
    have hcp : prices.headD 0 ≤ p := sorted_headD_le prices hsort p hpp
    have hcov := bucketLoop_covers prices (bucketWidth prices) (prices.getLastD 0) hbs
      hmaxall 17 12 (prices.headD 0) [] (by norm_num) hme (by simp) p hpp hcp
    rw [hbk]
    unfold priceBucketsOf
    exact hcov

theorem histogram_counts_partition_witness :
    ((snapTwo.priceBuckets.map Bucket.count).sum = snapTwo.compCount) ∧
    snapTwo.priceBuckets ≠ [] ∧
    (∃ w : ℤ, 0 < w ∧ ChainedFrom w snapTwo.minPrice snapTwo.priceBuckets) ∧
    (∀ (p : ℤ) (b₁ b₂ : Bucket), b₁ ∈ snapTwo.priceBuckets → b₂ ∈ snapTwo.priceBuckets →
      b₁.bmin ≤ p → p < b₁.bmax → b₂.bmin ≤ p → p < b₂.bmax → b₁ = b₂) ∧
    (∀ r ∈ recsTwo, ∀ p : ℤ, truthyParse (parse_price r.1) = some p →
      ∃ b ∈ snapTwo.priceBuckets, b.bmin ≤ p ∧ p < b.bmax) :=
  histogram_counts_partition recsTwo 2 none snapTwo (by rfl)

theorem setF_apply_ne (v : Vehicle) (tgt : VField) (x : Option Val) (qry : VField)
    (h : qry ≠ tgt) : setF v tgt x qry = v qry := by
  simp [setF, h]

theorem setF_apply_same (v : Vehicle) (tgt : VField) (x : Option Val) :
    setF v tgt x tgt = x := by
  simp [setF]

theorem callerStep_apply_ne (input w : Vehicle) (g f : VField) (h : f ≠ g) :
    callerStep input w g f = w f := by
  unfold callerStep
  split_ifs
  · exact setF_apply_ne w g (input g) f h
  · rfl

theorem caller_foldl_not_mem (input : Vehicle) (f : VField) :
    ∀ (l : List VField) (w : Vehicle), f ∉ l → (l.foldl (callerStep input) w) f = w f := by
  intro l
  induction l with
  | nil => intro w _; rfl
  | cons g t ih =>
    intro w hf
    simp only [List.foldl_cons]
    rw [ih _ (fun h => hf (List.mem_cons_of_mem g h))]
    exact callerStep_apply_ne input w g f
      (by intro heq; exact hf (by rw [heq]; exact List.mem_cons_self g t))

theorem caller_foldl_mem (input : Vehicle) (f : VField) (htru : truthyO (input f) = true) :
    ∀ (l : List VField) (w : Vehicle), f ∈ l → (l.foldl (callerStep input) w) f = input f := by
  intro l
  induction l with
  | nil => intro w hf; simp at hf
  | cons g t ih =>
    intro w hf
    simp only [List.foldl_cons]
    by_cases hft : f ∈ t
    · exact ih _ hft
    · have hfg : f = g := by
        rcases List.mem_cons.mp hf with h | h
        · exact h
        · exact absurd h hft
      subst hfg
      rw [caller_foldl_not_mem input f t _ hft]
      unfold callerStep
      rw [if_pos htru]
      exact setF_apply_same _ _ _

theorem applyCaller_apply (input veh : Vehicle) (f : VField) (hf : f ∈ callerFields)
    (htru : truthyO (input f) = true) : applyCaller input veh f = input f :=
  caller_foldl_mem input f htru callerFields veh hf

theorem fillStep_apply (d : VField → Option Val) (w : Vehicle) (g f : VField)
    (ht : truthyO (w f) = true) : fillStep d w g f = w f := by
  unfold fillStep
  by_cases hgf : g = f
  · subst hgf
    simp [ht]
  · split_ifs
    · exact setF_apply_ne w g (d g) f (fun hh => hgf hh.symm)
    · rfl

theorem fill_foldl_apply (d : VField → Option Val) (f : VField) :
    ∀ (l : List VField) (w : Vehicle), truthyO (w f) = true →
      (l.foldl (fillStep d) w) f = w f := by
  intro l
  induction l with
  | nil => intro w _; rfl
  | cons g t ih =>
    intro w ht
    simp only [List.foldl_cons]
    have hstep := fillStep_apply d w g f ht
    rw [ih (fillStep d w g) (by rw [hstep]; exact ht), hstep]

theorem condSet_apply (w : Vehicle) (tgt : VField) (x : Option Val) (cond : Bool)
    (f : VField) (h : tgt = f → truthyO (w f) = true) :
    (if cond && !(truthyO (w tgt)) then setF w tgt x else w) f = w f := by
  by_cases htf : tgt = f
  · subst htf
    simp [h rfl]
  · split_ifs
    · exact setF_apply_ne w tgt x f (fun hh => htf hh.symm)
    · rfl

theorem condSet_apply_ne (w : Vehicle) (tgt : VField) (x : Option Val) (cond : Bool)
    (f : VField) (h : tgt ≠ f) :
    (if cond then setF w tgt x else w) f = w f := by
  split_ifs
  · exact setF_apply_ne w tgt x f (fun hh => h hh.symm)
  · rfl

theorem applyAutodev_apply (vd : Option AutodevData) (v : Vehicle) (f : VField)
    (hf : f ∈ callerFields) (ht : truthyO (v f) = true) :
    applyAutodev vd v f = v f := by
  have hfPhone : VField.dealerPhone ≠ f := by
    intro hh
    rw [← hh] at hf
    exact absurd hf (by decide)
  have hfPhotos : VField.photos ≠ f := by
    intro hh
    rw [← hh] at hf
    exact absurd hf (by decide)
  cases vd with
  | none => rfl
  | some d =>
    show adColor d (adPhotos d (adDealerPhone d (adDealerName d (adFill d v)))) f = v f
    have h1 : adFill d v f = v f := fill_foldl_apply d.fields f autodevFields v ht
    have ht1 : truthyO (adFill d v f) = true := by rw [h1]; exact ht
    have h2 : adDealerName d (adFill d v) f = adFill d v f :=
      condSet_apply _ _ _ _ f (fun hh => by rw [← hh] at ht1 ⊢; exact ht1)
    have ht2 : truthyO (adDealerName d (adFill d v) f) = true := by rw [h2]; exact ht1
    have h3 : adDealerPhone d (adDealerName d (adFill d v)) f =
        adDealerName d (adFill d v) f :=
      condSet_apply_ne _ _ _ _ f hfPhone
    have ht3 : truthyO (adDealerPhone d (adDealerName d (adFill d v)) f) = true := by
      rw [h3]; exact ht2
    have h4 : adPhotos d (adDealerPhone d (adDealerName d (adFill d v))) f =
        adDealerPhone d (adDealerName d (adFill d v)) f :=
      condSet_apply _ _ _ _ f (fun hh => absurd hh hfPhotos)
    have ht4 : truthyO (adPhotos d (adDealerPhone d (adDealerName d (adFill d v))) f)
        = true := by rw [h4]; exact ht3
    have h5 : adColor d (adPhotos d (adDealerPhone d (adDealerName d (adFill d v)))) f =
        adPhotos d (adDealerPhone d (adDealerName d (adFill d v))) f :=
      condSet_apply _ _ _ _ f (fun hh => by rw [← hh] at ht4 ⊢; exact ht4)
    rw [h5, h4, h3, h2, h1]

theorem applyVinDecode_apply (vd : Option VinDecodeData) (v : Vehicle) (f : VField)
    (hf : f ∈ callerFields) (htrim : VField.trim = f → truthyO (v f) = true) :
    applyVinDecode vd v f = v f := by
  have hfDrive : VField.drivetrain ≠ f := by
    intro hh
    rw [← hh] at hf
    exact absurd hf (by decide)
  have hfTrans : VField.transmission ≠ f := by
    intro hh
    rw [← hh] at hf
    exact absurd hf (by decide)
  cases vd with
  | none => rfl
  | some d =>
    show vdTransmission d (vdDrivetrain d (vdTrim d v)) f = v f
    have h1 : vdTrim d v f = v f :=
      condSet_apply _ _ _ _ f htrim
    have h2 : vdDrivetrain d (vdTrim d v) f = vdTrim d v f :=
      condSet_apply _ _ _ _ f (fun hh => absurd hh hfDrive)
    have h3 : vdTransmission d (vdDrivetrain d (vdTrim d v)) f =
        vdDrivetrain d (vdTrim d v) f :=
      condSet_apply _ _ _ _ f (fun hh => absurd hh hfTrans)
    rw [h3, h2, h1]

theorem normPrice_apply_ne (v : Vehicle) (f : VField) (h : f ≠ .price) :
    normPrice v f = v f := by
  unfold normPrice
  split_ifs
  · cases hv : v VField.price with
    | none => rfl
    | some pv =>
      change (match parse_price pv with
        | some p => setF v VField.price (some (Val.vint p))
        | none => v) f = v f
      cases hpp : parse_price pv with
      | none => rfl
      | some p => exact setF_apply_ne v .price (some (Val.vint p)) f h
  · rfl

theorem normMileage_apply_ne (v : Vehicle) (f : VField) (h : f ≠ .mileage) :
    normMileage v f = v f := by
  unfold normMileage
  split_ifs
  · cases hv : v VField.mileage with
    | none => rfl
    | some mv =>
      change (match parse_mileage mv with
        | some m => setF v VField.mileage (some (Val.vint m))
        | none => v) f = v f
      cases hpp : parse_mileage mv with
      | none => rfl
      | some m => exact setF_apply_ne v .mileage (some (Val.vint m)) f h
  · rfl

theorem normYear_apply_ne (v : Vehicle) (f : VField) (h : f ≠ .year) :
    normYear v f = v f := by
  unfold normYear
  split_ifs
  · cases hv : v VField.year with
    | none => rfl
    | some yv =>
      change (match pyInt yv with
        | some n => setF v VField.year (some (Val.vint n))
        | none => v) f = v f
      cases hpp : pyInt yv with
      | none => rfl
      | some n => exact setF_apply_ne v .year (some (Val.vint n)) f h
  · rfl

theorem normPrice_apply (v : Vehicle) (ht : truthyO (v VField.price) = true) :
    normPrice v VField.price = normFieldVal VField.price (v VField.price) := by
  unfold normPrice
  rw [if_pos ht]
  cases hv : v VField.price with
  | none => rw [hv] at ht; simp [truthyO] at ht
  | some pv =>
    change (match parse_price pv with
      | some p => setF v VField.price (some (Val.vint p))
      | none => v) VField.price = normFieldVal VField.price (some pv)
    cases hpp : parse_price pv with
    | none =>
      show v VField.price = normFieldVal VField.price (some pv)
      rw [hv]
      simp [normFieldVal, hpp]
    | some p =>
      show setF v VField.price (some (Val.vint p)) VField.price =
        normFieldVal VField.price (some pv)
      rw [setF_apply_same]
      simp [normFieldVal, hpp]

theorem normMileage_apply (v : Vehicle) (ht : truthyO (v VField.mileage) = true) :
    normMileage v VField.mileage = normFieldVal VField.mileage (v VField.mileage) := by
  unfold normMileage
  rw [if_pos ht]
  cases hv : v VField.mileage with
  | none => rw [hv] at ht; simp [truthyO] at ht
  | some mv =>
    change (match parse_mileage mv with
      | some m => setF v VField.mileage (some (Val.vint m))
      | none => v) VField.mileage = normFieldVal VField.mileage (some mv)
    cases hpp : parse_mileage mv with
    | none =>
      show v VField.mileage = normFieldVal VField.mileage (some mv)
      rw [hv]
      simp [normFieldVal, hpp]
    | some m =>
      show setF v VField.mileage (some (Val.vint m)) VField.mileage =
        normFieldVal VField.mileage (some mv)
      rw [setF_apply_same]
      simp [normFieldVal, hpp]

theorem normYear_apply (v : Vehicle) (ht : truthyO (v VField.year) = true) :
    normYear v VField.year = normFieldVal VField.year (v VField.year) := by
  unfold normYear
  rw [if_pos ht]
  cases hv : v VField.year with
  | none => rw [hv] at ht; simp [truthyO] at ht
  | some yv =>
    change (match pyInt yv with
      | some n => setF v VField.year (some (Val.vint n))
      | none => v) VField.year = normFieldVal VField.year (some yv)
    cases hpp : pyInt yv with
    | none =>
      show v VField.year = normFieldVal VField.year (some yv)
      rw [hv]
      simp [normFieldVal, hpp]
    | some n =>
      show setF v VField.year (some (Val.vint n)) VField.year =
        normFieldVal VField.year (some yv)
      rw [setF_apply_same]
      simp [normFieldVal, hpp]

theorem normFieldVal_other (f : VField) (hp : f ≠ .price) (hm : f ≠ .mileage)
    (hy : f ≠ .year) (x : Option Val) : normFieldVal f x = x := by
  cases x <;> simp [normFieldVal, hp, hm, hy]

theorem norms_apply (w : Vehicle) (f : VField) (ht : truthyO (w f) = true) :
    normYear (normMileage (normPrice w)) f = normFieldVal f (w f) := by
  by_cases hp : f = VField.price
  · subst hp
    rw [normYear_apply_ne _ _ (by decide), normMileage_apply_ne _ _ (by decide)]
    exact normPrice_apply w ht
  · by_cases hm : f = VField.mileage
    · subst hm
      rw [normYear_apply_ne _ _ (by decide)]
      have h1 : normPrice w VField.mileage = w VField.mileage :=
        normPrice_apply_ne w _ (by decide)
      rw [normMileage_apply (normPrice w) (by rw [h1]; exact ht), h1]
    · by_cases hy : f = VField.year
      · subst hy
        have h1 : normPrice w VField.year = w VField.year :=
          normPrice_apply_ne w _ (by decide)
        have h2 : normMileage (normPrice w) VField.year = normPrice w VField.year :=
          normMileage_apply_ne _ _ (by decide)
        rw [normYear_apply (normMileage (normPrice w)) (by rw [h2, h1]; exact ht), h2, h1]
      · rw [normYear_apply_ne _ _ hy, normMileage_apply_ne _ _ hm, normPrice_apply_ne _ _ hp]
        exact (normFieldVal_other f hp hm hy (w f)).symm

/-- C4 (counterexample): the claim fails as stated.  A caller-supplied price
`"$13,435"` reaches the merged identity as the normalized integer `13435`
(src/app.py, line 1589 re-parses the caller's value), so the final value does
not equal the caller-supplied value. -/
theorem caller_value_exact_preservation_refuted :
    (analyzeMerge emptyVehicle cexCallerInput none none).map (fun v => v VField.price) =
      some (some (Val.vint 13435)) ∧
    cexCallerInput VField.price = some (Val.vstr "$13,435".toList) ∧
    Val.vint 13435 ≠ Val.vstr "$13,435".toList := by
  refine ⟨by rfl, rfl, by decide⟩

/-- C4 (amended): a field supplied (truthy) by the caller is never overwritten
by any derived source — neither the Auto.dev VIN lookup nor the NHTSA VIN
decode — and its value in the final merged identity equals the caller-supplied
value up to the canonical normalization step (price/mileage re-parsed when
parseable, year converted with `int` when convertible, every other field
unchanged).  In particular a caller value already in canonical form is
preserved exactly. -/
theorem callerFields_preserved_up_to_normalization
    (veh0 input : Vehicle) (autodev : Option AutodevData) (vdec : Option VinDecodeData)
    (vfinal : Vehicle) (f : VField)
    (hmerge : analyzeMerge veh0 input autodev vdec = some vfinal)
    (hf : f ∈ callerFields) (htru : truthyO (input f) = true) :
    vfinal f = normFieldVal f (input f) := by
  have h1 : applyCaller input veh0 f = input f := applyCaller_apply input veh0 f hf htru
  have ht1 : truthyO (applyCaller input veh0 f) = true := by rw [h1]; exact htru
  simp only [analyzeMerge] at hmerge
  by_cases hid : (!(truthyO (applyCaller input veh0 VField.make)) ||
      !(truthyO (applyCaller input veh0 VField.model))) = true
  · rw [if_pos hid] at hmerge
    exact absurd hmerge (by simp)
  · rw [if_neg hid] at hmerge
    obtain rfl := Option.some.inj hmerge
    set v1 := applyCaller input veh0 with hv1
    set v2 := if truthyO (v1 VField.vin) then applyAutodev autodev v1 else v1 with hv2
    set v3 := normYear (normMileage (normPrice v2)) with hv3
    have h2 : v2 f = input f := by
      rw [hv2]
      split_ifs
      · rw [applyAutodev_apply autodev v1 f hf ht1]
        exact h1
      · exact h1
    have ht2 : truthyO (v2 f) = true := by rw [h2]; exact htru
    have h3 : v3 f = normFieldVal f (v2 f) := by
      rw [hv3]
      exact norms_apply v2 f ht2
    have h4 : (if truthyO (v3 VField.vin) then applyVinDecode vdec v3 else v3) f = v3 f := by
      split_ifs
      · refine applyVinDecode_apply vdec v3 f hf ?_
        intro hh
        subst hh
        rw [h3, normFieldVal_other _ (by decide) (by decide) (by decide)]
        exact ht2
      · rfl
    rw [h4, h3, h2]

theorem callerFields_preserved_up_to_normalization_witness :
    witMerged VField.price = normFieldVal VField.price (witCallerInput VField.price) :=
  callerFields_preserved_up_to_normalization emptyVehicle witCallerInput none none
    witMerged VField.price (by rfl) (by decide) (by rfl)
